import Mathlib

/-!
Verification of the credential access-control and secret-redaction subsystem
(`packages/cli/src/credentials/credentials.service.ts`).

The embedding models decrypted credential payloads as finite string-keyed
maps whose values are strings, nested objects, or the JavaScript value
`undefined`.  Stateful repository operations are modelled as pure functions
on an explicit list of `Sharing` rows.  Code that can throw is modelled
with `Option` (`none` meaning an exception escaped).
-/

namespace N8n

/-! ## Decrypted credential payloads -/

mutual
/-- A value inside a decrypted credential payload: a string, a nested
object, or the JavaScript value `undefined`. -/
inductive CredValue : Type where
  | str : String → CredValue
  | obj : CredPayload → CredValue
  | undef : CredValue

/-- A decrypted credential payload: an ordered association list of
string keys to values, as in a JavaScript object. -/
inductive CredPayload : Type where
  | nil : CredPayload
  | cons : String → CredValue → CredPayload → CredPayload
end

/-- JavaScript property read `p[k]`: the value at the first matching key. -/
def lookupKey : CredPayload → String → Option CredValue
  | .nil, _ => none
  | .cons k v rest, key => if k = key then some v else lookupKey rest key

/-- Whether the payload has an entry for the given key. -/
def hasKey : CredPayload → String → Bool
  | .nil, _ => false
  | .cons k _ rest, key => k == key || hasKey rest key

/-- Membership of a key-value entry in a payload. -/
def entryMem : CredPayload → String → CredValue → Prop
  | .nil, _, _ => False
  | .cons k v rest, key, value => (k = key ∧ v = value) ∨ entryMem rest key value

mutual
/-- Well-formedness of a value: every nested object has no duplicate keys. -/
def wfValue : CredValue → Bool
  | .str _ => true
  | .undef => true
  | .obj p => wfPayload p
/-- Well-formedness of a payload: no duplicate keys, recursively.  JavaScript
objects always satisfy this. -/
def wfPayload : CredPayload → Bool
  | .nil => true
  | .cons k v rest => !(hasKey rest k) && wfValue v && wfPayload rest
end

/-- JavaScript `v.toString()`, defined for the values that have one;
`undefined.toString()` throws, giving `none`. -/
def jsToString : CredValue → Option String
  | .str s => some s
  | .obj _ => some "[object Object]"
  | .undef => none

/-! ## Sentinels and field sensitivity schema -/

/-- Modelled from the spec: the blanking sentinel (`CREDENTIAL_BLANKING_VALUE`
from the constants module, which is not among the provided sources) that
stands for a hidden non-empty secret. -/
def CREDENTIAL_BLANKING_VALUE : String :=
  "__n8n_BLANK_VALUE_e5362baf-c777-4d57-a609-6eaf1f9e87f6"

/-- Modelled from the spec: the presence-but-empty sentinel
(`CREDENTIAL_EMPTY_VALUE` from the n8n-workflow package, which is not among
the provided sources) that stands for a hidden empty-string secret. -/
def CREDENTIAL_EMPTY_VALUE : String :=
  "__n8n_EMPTY_VALUE_7b1af746-3729-4c60-9b9b-e08eb29e58da"

/-- A flattened credential-type field descriptor; `password` models
`typeOptions?.password` of the source `INodeProperties`. -/
structure INodeProperties where
  name : String
  password : Bool
  noDataExpression : Bool
  deriving DecidableEq

/-- A raw credential-type definition from the type registry: its parent
type names (`extends`) and its own ordered properties. -/
structure CredTypeDef where
  extendsList : List String
  properties : List INodeProperties
  deriving DecidableEq

/-- The credential type registry (`CredentialTypes.getByName`); `none`
models the `getByName` throw for an unknown type name. -/
def Registry : Type := String → Option CredTypeDef

/-- Replace the first property with the given name (the
`mainProperties[existingIndex] = property` branch of the merge). -/
def replaceFirstByName : List INodeProperties → INodeProperties → List INodeProperties
  | [], _ => []
  | q :: rest, p => if q.name == p.name then p :: rest else q :: replaceFirstByName rest p

/-- Modelled from the spec: `NodeHelpers.mergeNodeProperties` (n8n-workflow
package, not among the provided sources): each added property overrides an
existing property of the same name in place, otherwise it is appended,
preserving ordering by point of first appearance. -/
def mergeNodeProperties (mainProps addProps : List INodeProperties) : List INodeProperties :=
  addProps.foldl
    (fun acc p =>
      if acc.any (fun q => q.name == p.name) then replaceFirstByName acc p else acc ++ [p])
    mainProps

/-- The inner `getExtendedProps` of `redact`: depth-first merge of each
parent type resolved properties, then the type own properties.  `fuel`
bounds the recursion depth (the source assumes an acyclic `extends` graph);
`none` models a thrown `getByName` on an unknown parent type or a cyclic
graph. -/
def getExtendedProps (reg : Registry) : Nat → CredTypeDef → Option (List INodeProperties)
  | 0, _ => none
  | fuel + 1, t => do
    let inherited ← t.extendsList.foldlM
      (fun acc e => do
        let extendsType ← reg e
        let extendedProps ← getExtendedProps reg fuel extendsType
        pure (mergeNodeProperties acc extendedProps))
      []
    pure (mergeNodeProperties inherited t.properties)

/-! ## redact -/

/-- JavaScript `s.startsWith(pre)`, as a prefix test on the character
sequence (kept kernel-computable). -/
def jsStartsWith (s pre : String) : Bool := pre.toList.isPrefixOf s.toList

/-- The masking step shared by both branches of the `redact` loop body: a
value whose `toString()` is non-empty becomes the blanking sentinel, an
empty one becomes the presence-but-empty sentinel. -/
def maskValue (v : CredValue) : Option CredValue :=
  (jsToString v).map
    (fun s =>
      if s.length > 0 then CredValue.str CREDENTIAL_BLANKING_VALUE
      else CredValue.str CREDENTIAL_EMPTY_VALUE)

/-- One iteration of the `redact` key loop, for key `dataKey` holding `v`:
the cross-cutting keys `oauthTokenData` and `csrfSecret` are always masked;
otherwise the key is looked up in the flattened schema and masked only when
marked password-sensitive and not an expression placeholder (unless the
field disallows expressions).  `none` models the TypeError thrown when
JavaScript calls `.startsWith` or `.toString` on a non-string where the
source casts. -/
def redactValue (props : List INodeProperties) (dataKey : String) (v : CredValue) :
    Option CredValue :=
  if dataKey = "oauthTokenData" ∨ dataKey = "csrfSecret" then maskValue v
  else
    match props.find? (fun p => p.name == dataKey) with
    | none => some v
    | some prop =>
      if prop.password then
        match v with
        | .str s =>
          if !jsStartsWith s "=\x7b\x7b" || prop.noDataExpression then maskValue (.str s)
          else some (.str s)
        | .obj _ => none
        | .undef => none
      else some v

/-- The `redact` key loop over the whole (copied) payload. -/
def redactEntries (props : List INodeProperties) : CredPayload → Option CredPayload
  | .nil => some .nil
  | .cons k v rest => do
    let v' ← redactValue props k v
    let rest' ← redactEntries props rest
    pure (.cons k v' rest')

/-- `CredentialsService.redact`: when the credential type cannot be resolved
the original payload is returned unchanged (fail open); otherwise every
top-level key is run through the masking loop over the flattened schema. -/
def redact (reg : Registry) (fuel : Nat) (typeName : String) (data : CredPayload) :
    Option CredPayload :=
  match reg typeName with
  | none => some data
  | some credType =>
    match getExtendedProps reg fuel credType with
    | none => none
    | some props => redactEntries props data

/-! ## unredact -/

/-- Whether a value is one of the two sentinel strings (the strict-equality
comparison of the source). -/
def isSentinel : CredValue → Bool
  | .str s => s == CREDENTIAL_BLANKING_VALUE || s == CREDENTIAL_EMPTY_VALUE
  | _ => false

mutual
/-- `unredactRestoreValues`: walk the incoming entries; a sentinel value is
replaced by the saved value at the same key (JavaScript yields `undefined`
when the key is absent from the saved side), and matching nested objects
are restored recursively. -/
def unredactRestoreValues : CredPayload → CredPayload → CredPayload
  | .nil, _ => .nil
  | .cons k v rest, replacement =>
    .cons k (restoreEntry v (lookupKey replacement k)) (unredactRestoreValues rest replacement)

/-- The body of the `unredactRestoreValues` loop for one entry. -/
def restoreEntry : CredValue → Option CredValue → CredValue
  | v, r =>
    if isSentinel v then r.getD .undef
    else
      match v, r with
      | .obj inner, some (.obj rinner) => .obj (unredactRestoreValues inner rinner)
      | _, _ => v
end

/-- `CredentialsService.unredact`: restore every sentinel in the redacted
payload from the previously saved payload (the deep copy of the source is
the identity in this pure model). -/
def unredact (redactedData savedData : CredPayload) : CredPayload :=
  unredactRestoreValues redactedData savedData

/-! ## C3: fail-open redaction -/

/-- C3: for every payload and every credential whose type name the registry
cannot resolve, `redact` returns the original payload unchanged: no field is
masked and no error is raised to the caller. -/
theorem redact_fails_open (reg : Registry) (fuel : Nat) (typeName : String)
    (data : CredPayload) (h : reg typeName = none) :
    redact reg fuel typeName data = some data := by
  simp [redact, h]

theorem redact_fails_open_witness :
    redact (fun _ => none) 5 "microsoftOutlookOAuth2Api"
        (.cons "clientSecret" (.str "sk_live_abc") .nil) =
      some (.cons "clientSecret" (.str "sk_live_abc") .nil) :=
  redact_fails_open (fun _ => none) 5 "microsoftOutlookOAuth2Api"
    (.cons "clientSecret" (.str "sk_live_abc") .nil) rfl

/-! ## C4: sentinel distinction -/

/-- C4: for every field that `redact` masks (a password-marked schema field,
or the cross-cutting keys `oauthTokenData` and `csrfSecret`), a non-empty
value is replaced by the blanking sentinel and an empty-string value by the
presence-but-empty sentinel, and the two sentinel constants are distinct. -/
theorem redact_sentinel_distinction :
    CREDENTIAL_BLANKING_VALUE ≠ CREDENTIAL_EMPTY_VALUE ∧
    (∀ (props : List INodeProperties) (dataKey : String) (v : CredValue) (s : String),
      (dataKey = "oauthTokenData" ∨ dataKey = "csrfSecret") →
      jsToString v = some s →
      redactValue props dataKey v =
        some (.str (if s.length > 0 then CREDENTIAL_BLANKING_VALUE
                    else CREDENTIAL_EMPTY_VALUE))) ∧
    (∀ (props : List INodeProperties) (dataKey : String) (prop : INodeProperties) (s : String),
      ¬(dataKey = "oauthTokenData" ∨ dataKey = "csrfSecret") →
      props.find? (fun p => p.name == dataKey) = some prop →
      prop.password = true →
      (jsStartsWith s "=\x7b\x7b" = false ∨ prop.noDataExpression = true) →
      redactValue props dataKey (.str s) =
        some (.str (if s.length > 0 then CREDENTIAL_BLANKING_VALUE
                    else CREDENTIAL_EMPTY_VALUE))) := by
  refine ⟨by decide, ?_, ?_⟩
  · intro props dataKey v s hkey hts
    simp [redactValue, hkey, maskValue, hts]
    split <;> rfl
  · intro props dataKey prop s hkey hfind hpw hexpr
    have hcond : (!jsStartsWith s "=\x7b\x7b" || prop.noDataExpression) = true := by
      rcases hexpr with h | h <;> simp [h]
    simp [redactValue, hkey, hfind, hpw, hcond, maskValue, jsToString]
    split <;> rfl

theorem redact_sentinel_distinction_witness :
    redactValue [] "oauthTokenData" (CredValue.str "tok") =
      some (.str (if ("tok".length > 0) then CREDENTIAL_BLANKING_VALUE
                  else CREDENTIAL_EMPTY_VALUE)) :=
  redact_sentinel_distinction.2.1 [] "oauthTokenData" (.str "tok") "tok" (Or.inl rfl) rfl

/-! ## C1: redaction round-trip -/

theorem maskValue_sentinel {v v' : CredValue} (h : maskValue v = some v') :
    isSentinel v' = true := by
  unfold maskValue at h
  cases hts : jsToString v with
  | none => rw [hts] at h; simp at h
  | some s =>
    rw [hts] at h
    simp at h
    subst h
    by_cases hl : s.length > 0 <;> simp [hl, isSentinel]

theorem redactValue_eq_or_sentinel {props : List INodeProperties} {k : String}
    {v v' : CredValue} (h : redactValue props k v = some v') :
    v' = v ∨ isSentinel v' = true := by
  unfold redactValue at h
  by_cases hkey : (k = "oauthTokenData" ∨ k = "csrfSecret")
  · rw [if_pos hkey] at h
    exact Or.inr (maskValue_sentinel h)
  · rw [if_neg hkey] at h
    cases hf : props.find? (fun p => p.name == k) with
    | none =>
      rw [hf] at h
      exact Or.inl (Option.some.inj h).symm
    | some prop =>
      rw [hf] at h
      by_cases hpw : prop.password = true
      · simp only [hpw, if_true] at h
        split at h
        next s =>
          by_cases hc : (!jsStartsWith s "=\x7b\x7b" || prop.noDataExpression) = true
          · rw [if_pos hc] at h
            exact Or.inr (maskValue_sentinel h)
          · rw [if_neg hc] at h
            exact Or.inl (Option.some.inj h).symm
        next => exact absurd h (by simp)
        next => exact absurd h (by simp)
      · have hpw' : prop.password = false := by simpa using hpw
        simp only [hpw', Bool.false_eq_true, if_false] at h
        exact Or.inl (Option.some.inj h).symm

theorem entryMem_hasKey : ∀ (p : CredPayload) (k : String) (v : CredValue),
    entryMem p k v → hasKey p k = true
  | .nil, _, _, hm => absurd hm (by simp [entryMem])
  | .cons k1 _ rest, k, v, hm => by
    cases hm with
    | inl h1 => simp [hasKey, h1.1]
    | inr h1 => simp [hasKey, entryMem_hasKey rest k v h1]

theorem lookupKey_entryMem : ∀ (p : CredPayload) (k : String) (v : CredValue),
    wfPayload p = true → entryMem p k v → lookupKey p k = some v
  | .nil, _, _, _, hm => absurd hm (by simp [entryMem])
  | .cons k0 v0 rest, k, v, hwf, hm => by
    simp only [wfPayload, Bool.and_eq_true, Bool.not_eq_true'] at hwf
    cases hm with
    | inl h =>
      obtain ⟨hk, hv⟩ := h
      simp [lookupKey, hk, hv]
    | inr h =>
      have hk0 : k0 ≠ k := by
        intro hkk
        subst hkk
        exact Bool.false_ne_true (hwf.1.1 ▸ entryMem_hasKey rest k0 v h)
      simp only [lookupKey, if_neg hk0]
      exact lookupKey_entryMem rest k v hwf.2 h

theorem wfValue_of_entryMem : ∀ (p : CredPayload) (k : String) (v : CredValue),
    wfPayload p = true → entryMem p k v → wfValue v = true
  | .nil, _, _, _, hm => absurd hm (by simp [entryMem])
  | .cons k0 v0 rest, k, v, hwf, hm => by
    simp only [wfPayload, Bool.and_eq_true, Bool.not_eq_true'] at hwf
    cases hm with
    | inl h => rw [← h.2]; exact hwf.1.2
    | inr h => exact wfValue_of_entryMem rest k v hwf.2 h

mutual
theorem unredactRestoreValues_self : ∀ (p q : CredPayload),
    (∀ k v, entryMem p k v → lookupKey q k = some v ∧ wfValue v = true) →
    unredactRestoreValues p q = p
  | .nil, _, _ => rfl
  | .cons k v rest, q, h => by
    have hk := h k v (Or.inl ⟨rfl, rfl⟩)
    rw [unredactRestoreValues, hk.1, restoreEntry_self v hk.2,
      unredactRestoreValues_self rest q (fun k' v' hm => h k' v' (Or.inr hm))]

theorem restoreEntry_self : ∀ (v : CredValue), wfValue v = true →
    restoreEntry v (some v) = v
  | .str s, _ => by
    rw [restoreEntry.eq_def]
    dsimp only
    by_cases hs : isSentinel (CredValue.str s) = true
    · rw [if_pos hs]; rfl
    · rw [if_neg hs]
  | .undef, _ => by
    rw [restoreEntry.eq_def]
    dsimp only
    rw [if_neg (by simp [isSentinel] : ¬isSentinel CredValue.undef = true)]
  | .obj inner, h => by
    have hwf : wfPayload inner = true := by simpa [wfValue] using h
    rw [restoreEntry.eq_def]
    dsimp only
    rw [if_neg (by simp [isSentinel] : ¬isSentinel (CredValue.obj inner) = true)]
    show CredValue.obj (unredactRestoreValues inner inner) = CredValue.obj inner
    rw [unredactRestoreValues_self inner inner
      (fun k v hm => ⟨lookupKey_entryMem inner k v hwf hm, wfValue_of_entryMem inner k v hwf hm⟩)]
end

theorem redactEntries_hasKey {props : List INodeProperties} :
    ∀ (p r : CredPayload), redactEntries props p = some r →
    ∀ key, hasKey r key = hasKey p key
  | .nil, r, h, key => by
    simp only [redactEntries] at h
    cases h
    rfl
  | .cons k v rest, r, h, key => by
    simp only [redactEntries, Option.bind_eq_bind, Option.bind_eq_some] at h
    obtain ⟨v', _, r', hr', hsome⟩ := h
    cases hsome
    simp [hasKey, redactEntries_hasKey rest r' hr' key]

theorem unredactRestoreValues_skip_head {k : String} {v : CredValue} :
    ∀ (r q : CredPayload), (∀ key, hasKey r key = true → key ≠ k) →
    unredactRestoreValues r (.cons k v q) = unredactRestoreValues r q
  | .nil, _, _ => rfl
  | .cons k1 v1 rest, q, h => by
    have hk1 : k1 ≠ k := h k1 (by simp [hasKey])
    rw [unredactRestoreValues, unredactRestoreValues]
    have hlk : lookupKey (.cons k v q) k1 = lookupKey q k1 := by
      rw [lookupKey, if_neg (fun hkk => hk1 hkk.symm)]
    rw [hlk, unredactRestoreValues_skip_head rest q
      (fun key hkey => h key (by simp [hasKey, hkey]))]

theorem redactEntries_unredact {props : List INodeProperties} :
    ∀ (p r : CredPayload), wfPayload p = true → redactEntries props p = some r →
    unredactRestoreValues r p = p
  | .nil, r, _, h => by
    simp only [redactEntries] at h
    cases h
    rfl
  | .cons k v rest, r, hwf, h => by
    simp only [wfPayload, Bool.and_eq_true, Bool.not_eq_true'] at hwf
    simp only [redactEntries, Option.bind_eq_bind, Option.bind_eq_some] at h
    obtain ⟨v', hv', r', hr', hsome⟩ := h
    cases hsome
    rw [unredactRestoreValues]
    have hlk : lookupKey (.cons k v rest) k = some v := by simp [lookupKey]
    rw [hlk]
    have hhead : restoreEntry v' (some v) = v := by
      cases redactValue_eq_or_sentinel hv' with
      | inl he => rw [he]; exact restoreEntry_self v hwf.1.2
      | inr hs => rw [restoreEntry.eq_def]; dsimp only; rw [if_pos hs]; rfl
    rw [hhead]
    have htail : unredactRestoreValues r' (.cons k v rest) = unredactRestoreValues r' rest := by
      refine unredactRestoreValues_skip_head r' rest (fun key hkey => ?_)
      intro hkk
      subst hkk
      rw [redactEntries_hasKey rest r' hr' key, hwf.1.1] at hkey
      exact Bool.false_ne_true hkey
    rw [htail, redactEntries_unredact rest r' hwf.2 hr']

/-- Whether a top-level key of a payload of the given credential type is
treated as sensitive by `redact`: a cross-cutting key, or a schema field
marked password-sensitive. -/
def isSensitiveKey (reg : Registry) (fuel : Nat) (typeName : String) (k : String) : Bool :=
  k == "oauthTokenData" || k == "csrfSecret" ||
    (match reg typeName with
     | none => false
     | some t =>
       match getExtendedProps reg fuel t with
       | none => false
       | some props =>
         match props.find? (fun p => p.name == k) with
         | some prop => prop.password
         | none => false)

theorem redactValue_id_of_nonsensitive {props : List INodeProperties} {k : String}
    (h1 : ¬(k = "oauthTokenData" ∨ k = "csrfSecret"))
    (h2 : match props.find? (fun p => p.name == k) with
          | some prop => prop.password = false
          | none => True) :
    ∀ w, redactValue props k w = some w := by
  intro w
  unfold redactValue
  rw [if_neg h1]
  cases hf : props.find? (fun p => p.name == k) with
  | none => rfl
  | some prop =>
    rw [hf] at h2
    simp [h2]

theorem redactEntries_lookup_of_nonsensitive {props : List INodeProperties} {k : String}
    (h1 : ¬(k = "oauthTokenData" ∨ k = "csrfSecret"))
    (h2 : match props.find? (fun p => p.name == k) with
          | some prop => prop.password = false
          | none => True) :
    ∀ (p r : CredPayload), redactEntries props p = some r →
    ∀ v, lookupKey p k = some v → lookupKey r k = some v
  | .nil, r, h, v, hl => by simp [lookupKey] at hl
  | .cons k0 v0 rest, r, h, v, hl => by
    simp only [redactEntries, Option.bind_eq_bind, Option.bind_eq_some] at h
    obtain ⟨v', hv', r', hr', hsome⟩ := h
    cases hsome
    by_cases hk : k0 = k
    · subst hk
      simp only [lookupKey, if_pos rfl] at hl ⊢
      rw [redactValue_id_of_nonsensitive h1 h2 v0] at hv'
      cases hv'
      exact hl
    · simp only [lookupKey, if_neg hk] at hl ⊢
      exact redactEntries_lookup_of_nonsensitive h1 h2 rest r' hr' v hl

/-- C1: redaction round-trip.  For every well-formed payload `p` on which
`redact` completes, `unredact (redact p) p` reproduces `p` exactly (in
particular every password-masked sentinel is replaced by the saved value),
and every top-level field not treated as sensitive is byte-identical in the
redacted payload itself. -/
theorem redact_unredact_roundtrip (reg : Registry) (fuel : Nat) (typeName : String)
    {p r : CredPayload} (hwf : wfPayload p = true)
    (hred : redact reg fuel typeName p = some r) :
    unredact r p = p ∧
    (∀ k v, isSensitiveKey reg fuel typeName k = false →
      lookupKey p k = some v → lookupKey r k = some v) := by
  have hself : unredactRestoreValues p p = p :=
    unredactRestoreValues_self p p
      (fun k v hm => ⟨lookupKey_entryMem p k v hwf hm, wfValue_of_entryMem p k v hwf hm⟩)
  unfold redact at hred
  split at hred
  next hreg =>
    cases hred
    exact ⟨hself, fun k v _ hl => hl⟩
  next t hreg =>
    split at hred
    next hprops => exact absurd hred (by simp)
    next props hprops =>
      constructor
      · exact redactEntries_unredact p r hwf hred
      · intro k v hsens hl
        simp only [isSensitiveKey, hreg, hprops, Bool.or_eq_false_iff, beq_eq_false_iff_ne,
          ne_eq] at hsens
        have h1 : ¬(k = "oauthTokenData" ∨ k = "csrfSecret") := by
          rintro (h | h) <;> [exact hsens.1.1 h; exact hsens.1.2 h]
        have h2 : match props.find? (fun p => p.name == k) with
            | some prop => prop.password = false
            | none => True := by
          cases hf : props.find? (fun p => p.name == k) with
          | none => trivial
          | some prop =>
            have := hsens.2
            rw [hf] at this
            exact this
        exact redactEntries_lookup_of_nonsensitive h1 h2 _ _ hred v hl

/-- A concrete one-type registry used to exercise the round-trip theorem. -/
def roundtripRegistry : Registry := fun n =>
  if n = "testType" then
    some { extendsList := [], properties := [{ name := "clientSecret", password := true, noDataExpression := false }] }
  else none

/-- A concrete decrypted payload with one password field and one plain field. -/
def roundtripPayload : CredPayload :=
  .cons "clientSecret" (.str "sk_live_abc") (.cons "scope" (.str "mail.read") .nil)

/-- The redaction of `roundtripPayload` under `roundtripRegistry`. -/
def roundtripRedacted : CredPayload :=
  .cons "clientSecret" (.str CREDENTIAL_BLANKING_VALUE) (.cons "scope" (.str "mail.read") .nil)

theorem redact_unredact_roundtrip_witness :
    unredact roundtripRedacted roundtripPayload = roundtripPayload :=
  (redact_unredact_roundtrip roundtripRegistry 2 "testType"
    (by rfl) (by rfl : redact roundtripRegistry 2 "testType" roundtripPayload = some roundtripRedacted)).1

/-! ## Sharing rows and transferAll -/

/-- A `SharedCredentials` row: `(credentialsId, projectId, role)`. -/
structure Sharing where
  credentialsId : String
  projectId : String
  role : String
  deriving DecidableEq

/-- The `credential:owner` sharing role. -/
def ownerRole : String := "credential:owner"

/-- Modelled from the spec: one step of `SharedCredentialsRepository.makeOwner`
(repository layer, not among the provided sources): upsert the destination
project row for one credential to role owner, overwriting whatever relation
the destination already has to it. -/
def upsertOwner (rows : List Sharing) (cid pid : String) : List Sharing :=
  if rows.any (fun r => r.credentialsId == cid && r.projectId == pid) then
    rows.map (fun r =>
      if r.credentialsId == cid && r.projectId == pid then { r with role := ownerRole } else r)
  else rows ++ [{ credentialsId := cid, projectId := pid, role := ownerRole }]

/-- Modelled from the spec: `SharedCredentialsRepository.makeOwner`: give the
destination project an owner row for every listed credential. -/
def makeOwner (rows : List Sharing) (cids : List String) (pid : String) : List Sharing :=
  cids.foldl (fun acc cid => upsertOwner acc cid pid) rows

/-- Modelled from the spec: `SharedCredentialsRepository.deleteByIds`
(repository layer, not among the provided sources): delete the given
project rows for the given credential ids. -/
def deleteByIds (rows : List Sharing) (cids : List String) (pid : String) : List Sharing :=
  rows.filter (fun r => !(cids.contains r.credentialsId && r.projectId == pid))

/-- The `allSharedCredentials` snapshot of `transferAll`: all rows of the two
projects involved. -/
def allSharedFor (rows : List Sharing) (fromP toP : String) : List Sharing :=
  rows.filter (fun r => r.projectId == fromP || r.projectId == toP)

/-- The `sharedCredentialsOfFromProject` snapshot of `transferAll`. -/
def fromProjectRows (rows : List Sharing) (fromP toP : String) : List Sharing :=
  (allSharedFor rows fromP toP).filter (fun r => r.projectId == fromP)

/-- The `ownedCredentialIds` of `transferAll`: credentials the from-project
owns. -/
def ownedCredentialIdsOf (rows : List Sharing) (fromP toP : String) : List String :=
  ((fromProjectRows rows fromP toP).filter (fun r => r.role == ownerRole)).map
    (fun r => r.credentialsId)

/-- The `sharedCredentialIdsOfTransferee` of `transferAll`: credentials the
destination project already has some relation to. -/
def transfereeCredentialIds (rows : List Sharing) (fromP toP : String) : List String :=
  ((allSharedFor rows fromP toP).filter (fun r => r.projectId == toP)).map
    (fun r => r.credentialsId)

/-- The `sharedCredentialsToTransfer` of `transferAll`: non-owner rows of the
from-project for credentials the destination has no relation to. -/
def sharedCredentialsToTransfer (rows : List Sharing) (fromP toP : String) : List Sharing :=
  (fromProjectRows rows fromP toP).filter
    (fun r => !(r.role == ownerRole) &&
      !((transfereeCredentialIds rows fromP toP).contains r.credentialsId))

/-- `CredentialsService.transferAll` on the explicit row table: make the
destination the owner of every credential the from-project owns, delete the
from-project rows for those credentials, then insert destination copies of
the from-project non-owner rows for credentials the destination has no
relation to. -/
def transferAll (rows : List Sharing) (fromP toP : String) : List Sharing :=
  deleteByIds (makeOwner rows (ownedCredentialIdsOf rows fromP toP) toP)
      (ownedCredentialIdsOf rows fromP toP) fromP
    ++ (sharedCredentialsToTransfer rows fromP toP).map
      (fun r => { credentialsId := r.credentialsId, projectId := toP, role := r.role })

/-- At most one owner Sharing row per credential (pairwise over the table). -/
def AtMostOneOwner (rows : List Sharing) : Prop :=
  rows.Pairwise (fun r s =>
    ¬(r.role = ownerRole ∧ s.role = ownerRole ∧ r.credentialsId = s.credentialsId))

/-- At most one Sharing row per (credential, project) pair: the unique key of
the `SharedCredentials` table. -/
def UniqueCredProj (rows : List Sharing) : Prop :=
  rows.Pairwise (fun r s => ¬(r.credentialsId = s.credentialsId ∧ r.projectId = s.projectId))

/-- Number of owner rows held over the given credential. -/
def ownerCountFor (rows : List Sharing) (c : String) : Nat :=
  rows.countP (fun r => r.credentialsId == c && r.role == ownerRole)

/-- Number of owner rows across the two given projects. -/
def ownerCountIn (rows : List Sharing) (a b : String) : Nat :=
  rows.countP (fun r => (r.projectId == a || r.projectId == b) && r.role == ownerRole)

/-! ## Membership lemmas for the transfer pipeline -/

theorem mem_upsertOwner {rows : List Sharing} {cid pid : String} {x : Sharing}
    (hx : x ∈ upsertOwner rows cid pid) :
    x ∈ rows ∨ (x.projectId = pid ∧ x.role = ownerRole) := by
  unfold upsertOwner at hx
  split at hx
  · obtain ⟨r, hr, hfr⟩ := List.mem_map.mp hx
    by_cases hc : (r.credentialsId == cid && r.projectId == pid) = true
    · rw [if_pos hc] at hfr
      simp only [Bool.and_eq_true, beq_iff_eq] at hc
      right
      rw [← hfr]
      exact ⟨hc.2, rfl⟩
    · rw [if_neg hc] at hfr
      exact Or.inl (hfr ▸ hr)
  · rcases List.mem_append.mp hx with h | h
    · exact Or.inl h
    · right
      have hx' : x = { credentialsId := cid, projectId := pid, role := ownerRole } := by
        simpa using h
      rw [hx']
      exact ⟨rfl, rfl⟩

theorem mem_makeOwner {pid : String} :
    ∀ (cids : List String) (rows : List Sharing) {x : Sharing},
    x ∈ makeOwner rows cids pid → x ∈ rows ∨ (x.projectId = pid ∧ x.role = ownerRole)
  | [], _, _, hx => Or.inl hx
  | c :: rest, rows, x, hx => by
    cases mem_makeOwner rest (upsertOwner rows c pid) hx with
    | inl h => exact mem_upsertOwner h
    | inr h => exact Or.inr h

theorem mem_upsertOwner_of_ne {rows : List Sharing} {cid pid : String} {r : Sharing}
    (hr : r ∈ rows) (hne : ¬(r.credentialsId = cid ∧ r.projectId = pid)) :
    r ∈ upsertOwner rows cid pid := by
  unfold upsertOwner
  split
  · refine List.mem_map.mpr ⟨r, hr, ?_⟩
    rw [if_neg (by simpa [Bool.and_eq_true, beq_iff_eq] using hne)]
  · exact List.mem_append_left _ hr

theorem mem_makeOwner_of_ne {pid : String} :
    ∀ (cids : List String) (rows : List Sharing) {r : Sharing}, r ∈ rows →
    (∀ c ∈ cids, ¬(r.credentialsId = c ∧ r.projectId = pid)) → r ∈ makeOwner rows cids pid
  | [], _, _, hr, _ => hr
  | c :: rest, rows, r, hr, h =>
    mem_makeOwner_of_ne rest _
      (mem_upsertOwner_of_ne hr (h c (by simp)))
      (fun c' hc' => h c' (by simp [hc']))

theorem ownerRow_mem_upsert_self {rows : List Sharing} {cid pid : String} :
    ({ credentialsId := cid, projectId := pid, role := ownerRole } : Sharing) ∈
      upsertOwner rows cid pid := by
  unfold upsertOwner
  split
  next hany =>
    obtain ⟨r, hr, hc⟩ := List.any_eq_true.mp hany
    refine List.mem_map.mpr ⟨r, hr, ?_⟩
    rw [if_pos hc]
    simp only [Bool.and_eq_true, beq_iff_eq] at hc
    cases r
    simp_all
  next => exact List.mem_append_right _ (by simp)

theorem ownerRow_mem_makeOwner {pid : String} :
    ∀ (cids : List String) (rows : List Sharing) (c : String), c ∈ cids → cids.Nodup →
    ({ credentialsId := c, projectId := pid, role := ownerRole } : Sharing) ∈
      makeOwner rows cids pid
  | [], _, _, hc, _ => absurd hc (by simp)
  | c0 :: rest, rows, c, hc, hnd => by
    rcases List.mem_cons.mp hc with h | h
    · subst h
      have hnotin : c ∉ rest := (List.nodup_cons.mp hnd).1
      refine mem_makeOwner_of_ne rest _ ownerRow_mem_upsert_self (fun c' hc' hcc => ?_)
      exact hnotin (show c ∈ rest by rw [show c = c' from hcc.1]; exact hc')
    · exact ownerRow_mem_makeOwner rest (upsertOwner rows c0 pid) c h (List.nodup_cons.mp hnd).2

theorem mem_fromProjectRows {rows : List Sharing} {A B : String} {r : Sharing} :
    r ∈ fromProjectRows rows A B ↔ r ∈ rows ∧ r.projectId = A := by
  simp only [fromProjectRows, allSharedFor, List.mem_filter, Bool.or_eq_true, beq_iff_eq,
    Bool.and_eq_true]
  constructor
  · rintro ⟨⟨h1, _⟩, h3⟩
    exact ⟨h1, h3⟩
  · rintro ⟨h1, h2⟩
    exact ⟨⟨h1, Or.inl h2⟩, h2⟩

theorem mem_ownedCredentialIdsOf {rows : List Sharing} {A B c : String} :
    c ∈ ownedCredentialIdsOf rows A B ↔
      ∃ r ∈ rows, r.projectId = A ∧ r.role = ownerRole ∧ r.credentialsId = c := by
  simp only [ownedCredentialIdsOf, List.mem_map, List.mem_filter, mem_fromProjectRows,
    beq_iff_eq]
  constructor
  · rintro ⟨r, ⟨⟨hr, hA⟩, hrole⟩, hcred⟩
    exact ⟨r, hr, hA, hrole, hcred⟩
  · rintro ⟨r, hr, hA, hrole, hcred⟩
    exact ⟨r, ⟨⟨hr, hA⟩, hrole⟩, hcred⟩

theorem mem_transfereeCredentialIds {rows : List Sharing} {A B c : String} :
    c ∈ transfereeCredentialIds rows A B ↔
      ∃ t ∈ rows, t.projectId = B ∧ t.credentialsId = c := by
  simp only [transfereeCredentialIds, List.mem_map, List.mem_filter, allSharedFor,
    Bool.or_eq_true, beq_iff_eq, Bool.and_eq_true]
  constructor
  · rintro ⟨t, ⟨⟨ht, _⟩, hB⟩, hcred⟩
    exact ⟨t, ht, hB, hcred⟩
  · rintro ⟨t, ht, hB, hcred⟩
    exact ⟨t, ⟨⟨ht, Or.inr hB⟩, hB⟩, hcred⟩

theorem contains_eq_mem (l : List String) (a : String) : l.contains a = true ↔ a ∈ l :=
  List.elem_iff

theorem contains_eq_false_iff (l : List String) (a : String) : l.contains a = false ↔ a ∉ l := by
  constructor
  · intro h hm
    rw [(contains_eq_mem l a).mpr hm] at h
    cases h
  · intro h
    cases hc : l.contains a
    · rfl
    · exact absurd ((contains_eq_mem l a).mp hc) h

theorem mem_sharedCredentialsToTransfer {rows : List Sharing} {A B : String} {s : Sharing} :
    s ∈ sharedCredentialsToTransfer rows A B ↔
      s ∈ rows ∧ s.projectId = A ∧ s.role ≠ ownerRole ∧
        ∀ t ∈ rows, t.projectId = B → t.credentialsId ≠ s.credentialsId := by
  simp only [sharedCredentialsToTransfer, List.mem_filter, mem_fromProjectRows,
    Bool.and_eq_true, Bool.not_eq_true', beq_eq_false_iff_ne, ne_eq,
    contains_eq_false_iff, mem_transfereeCredentialIds]
  constructor
  · rintro ⟨⟨hs, hA⟩, hrole, hno⟩
    exact ⟨hs, hA, hrole, fun t ht hB hcred => hno ⟨t, ht, hB, hcred⟩⟩
  · rintro ⟨hs, hA, hrole, hno⟩
    exact ⟨⟨hs, hA⟩, hrole, fun hex =>
      match hex with
      | ⟨t, ht, hB, hcred⟩ => hno t ht hB hcred⟩

theorem mem_deleteByIds {rows : List Sharing} {cids : List String} {pid : String} {x : Sharing} :
    x ∈ deleteByIds rows cids pid ↔
      x ∈ rows ∧ (x.credentialsId ∉ cids ∨ x.projectId ≠ pid) := by
  simp only [deleteByIds, List.mem_filter, Bool.not_eq_true', Bool.and_eq_false_iff,
    contains_eq_false_iff, beq_eq_false_iff_ne, ne_eq]

theorem nodup_ownedCredentialIdsOf {rows : List Sharing} {A B : String}
    (hO : AtMostOneOwner rows) : (ownedCredentialIdsOf rows A B).Nodup := by
  unfold ownedCredentialIdsOf
  rw [List.Nodup, List.pairwise_map]
  have hsub : ((fromProjectRows rows A B).filter (fun r => r.role == ownerRole)).Sublist rows :=
    ((List.filter_sublist _).trans ((List.filter_sublist _).trans (List.filter_sublist _)))
  have hpw := hO.sublist hsub
  refine hpw.imp_of_mem (fun {a b} ha hb hR => ?_)
  have haro : a.role = ownerRole := by
    have := (List.mem_filter.mp ha).2
    simpa using this
  have hbro : b.role = ownerRole := by
    have := (List.mem_filter.mp hb).2
    simpa using this
  intro hcc
  exact hR ⟨haro, hbro, hcc⟩

/-! ## C8: what transfer leaves in the source project (corrected) -/

/-- C8 counterexample: with a single non-owner row in project A,
`transferAll A B` leaves that row in A (and adds a copy in B), so the claim
that the from-project retains no Sharing rows is false. -/
theorem transferAll_source_retains_non_owner_row :
    transferAll [{ credentialsId := "c3", projectId := "A", role := "credential:editor" }]
        "A" "B" =
      [{ credentialsId := "c3", projectId := "A", role := "credential:editor" },
       { credentialsId := "c3", projectId := "B", role := "credential:editor" }] ∧
    ({ credentialsId := "c3", projectId := "A", role := "credential:editor" } : Sharing) ∈
      transferAll [{ credentialsId := "c3", projectId := "A", role := "credential:editor" }]
        "A" "B" := by
  decide

/-- C8 amended: after `transferAll(from, to)` with distinct projects, the
from-project retains no owner row (each owner row is moved: an owner row for
the same credential appears at the destination), while every non-owner row
of the from-project remains in the from-project (copied (only into a
destination without a prior relation), not moved). -/
theorem transferAll_moves_owner_rows (rows : List Sharing) (A B : String)
    (hAB : A ≠ B) (hU : UniqueCredProj rows) (hO : AtMostOneOwner rows) :
    (∀ x ∈ transferAll rows A B, ¬(x.projectId = A ∧ x.role = ownerRole)) ∧
    (∀ r ∈ rows, r.projectId = A → r.role ≠ ownerRole → r ∈ transferAll rows A B) ∧
    (∀ r ∈ rows, r.projectId = A → r.role = ownerRole →
      ({ credentialsId := r.credentialsId, projectId := B, role := ownerRole } : Sharing) ∈
        transferAll rows A B) := by
  refine ⟨?_, ?_, ?_⟩
  · intro x hx ⟨hprojA, hrole⟩
    rcases List.mem_append.mp hx with hdel | hins
    · obtain ⟨hmk, hdisj⟩ := mem_deleteByIds.mp hdel
      have hxrows : x ∈ rows := by
        rcases mem_makeOwner _ _ hmk with h | h
        · exact h
        · exact absurd (hprojA ▸ h.1) hAB
      have hin : x.credentialsId ∈ ownedCredentialIdsOf rows A B :=
        mem_ownedCredentialIdsOf.mpr ⟨x, hxrows, hprojA, hrole, rfl⟩
      rcases hdisj with h | h
      · exact h hin
      · exact h hprojA
    · obtain ⟨s, _, hsx⟩ := List.mem_map.mp hins
      have : x.projectId = B := by rw [← hsx]
      exact hAB (hprojA ▸ this)
  · intro r hr hprojA hrole
    have hnotin : r.credentialsId ∉ ownedCredentialIdsOf rows A B := by
      intro hin
      obtain ⟨s, hs, hsA, hsrole, hscred⟩ := mem_ownedCredentialIdsOf.mp hin
      have hrs : s ≠ r := fun he => hrole (he ▸ hsrole)
      have hsym : Symmetric (fun r s : Sharing =>
          ¬(r.credentialsId = s.credentialsId ∧ r.projectId = s.projectId)) :=
        fun a b hab ⟨h1, h2⟩ => hab ⟨h1.symm, h2.symm⟩
      exact (hU.forall hsym hs hr hrs) ⟨hscred, hsA.trans hprojA.symm⟩
    refine List.mem_append_left _ (mem_deleteByIds.mpr ⟨?_, Or.inl hnotin⟩)
    exact mem_makeOwner_of_ne _ _ hr (fun c _ hcc => hAB (hprojA ▸ hcc.2 : A = B))
  · intro r hr hprojA hrole
    have hin : r.credentialsId ∈ ownedCredentialIdsOf rows A B :=
      mem_ownedCredentialIdsOf.mpr ⟨r, hr, hprojA, hrole, rfl⟩
    have hmem := @ownerRow_mem_makeOwner B (ownedCredentialIdsOf rows A B) rows
      r.credentialsId hin (nodup_ownedCredentialIdsOf hO)
    exact List.mem_append_left _ (mem_deleteByIds.mpr ⟨hmem, Or.inr (by simpa using hAB.symm)⟩)

theorem transferAll_moves_owner_rows_witness :
    ({ credentialsId := "c1", projectId := "B", role := ownerRole } : Sharing) ∈
      transferAll [{ credentialsId := "c1", projectId := "A", role := "credential:owner" }]
        "A" "B" :=
  (transferAll_moves_owner_rows
      [{ credentialsId := "c1", projectId := "A", role := "credential:owner" }] "A" "B"
      (by decide) (by unfold UniqueCredProj; decide) (by unfold AtMostOneOwner; decide)).2.2
    { credentialsId := "c1", projectId := "A", role := "credential:owner" }
    (by simp) rfl rfl

/-! ## C6: non-owner preservation (corrected) -/

/-- C6 counterexample: a destination (project B) `editor` row for a
credential that project A owns is overwritten to `owner` by the transfer,
so the claim that a pre-existing destination non-owner row is always left
unchanged is false. -/
theorem transferAll_overwrites_destination_relation :
    transferAll
        [{ credentialsId := "c1", projectId := "A", role := "credential:owner" },
         { credentialsId := "c1", projectId := "B", role := "credential:editor" }] "A" "B" =
      [{ credentialsId := "c1", projectId := "B", role := "credential:owner" }] ∧
    ({ credentialsId := "c1", projectId := "B", role := "credential:editor" } : Sharing) ∉
      transferAll
        [{ credentialsId := "c1", projectId := "A", role := "credential:owner" },
         { credentialsId := "c1", projectId := "B", role := "credential:editor" }] "A" "B" := by
  decide

/-- C6 amended: a destination non-owner Sharing row is left unchanged unless
the from-project owns its credential (ownership transfer overwrites that
one); and a from-project non-owner row is copied into the destination only
when the destination holds no Sharing row of any role for that credential. -/
theorem transferAll_non_owner_rows (rows : List Sharing) (A B : String) :
    (∀ r ∈ rows, r.projectId = B → r.role ≠ ownerRole →
      (∀ s ∈ rows, s.projectId = A → s.role = ownerRole →
        s.credentialsId ≠ r.credentialsId) →
      r ∈ transferAll rows A B) ∧
    (∀ x ∈ transferAll rows A B, x.projectId = B → x.role ≠ ownerRole →
      x ∈ rows ∨
        ∃ s ∈ rows, s.projectId = A ∧ s.role = x.role ∧
          s.credentialsId = x.credentialsId ∧
          ∀ t ∈ rows, t.projectId = B → t.credentialsId ≠ x.credentialsId) := by
  constructor
  · intro r hr hprojB hrole hnoowner
    have hnotin : r.credentialsId ∉ ownedCredentialIdsOf rows A B := by
      intro hin
      obtain ⟨s, hs, hsA, hsrole, hscred⟩ := mem_ownedCredentialIdsOf.mp hin
      exact hnoowner s hs hsA hsrole hscred
    refine List.mem_append_left _ (mem_deleteByIds.mpr ⟨?_, Or.inl hnotin⟩)
    exact mem_makeOwner_of_ne _ _ hr
      (fun c hc hcc => hnotin (by rw [hcc.1]; exact hc))
  · intro x hx hprojB hrole
    rcases List.mem_append.mp hx with hdel | hins
    · left
      have hmk := (mem_deleteByIds.mp hdel).1
      rcases mem_makeOwner _ _ hmk with h | h
      · exact h
      · exact absurd h.2 hrole
    · right
      obtain ⟨s, hs, hsx⟩ := List.mem_map.mp hins
      obtain ⟨hsrows, hsA, hsrole, hno⟩ := mem_sharedCredentialsToTransfer.mp hs
      refine ⟨s, hsrows, hsA, ?_, ?_, ?_⟩
      · rw [← hsx]
      · rw [← hsx]
      · intro t ht htB
        rw [← hsx]
        exact hno t ht htB

theorem transferAll_non_owner_rows_witness :
    ({ credentialsId := "c2", projectId := "B", role := "credential:user" } : Sharing) ∈
      transferAll [{ credentialsId := "c2", projectId := "B", role := "credential:user" }]
        "A" "B" :=
  (transferAll_non_owner_rows
      [{ credentialsId := "c2", projectId := "B", role := "credential:user" }] "A" "B").1
    { credentialsId := "c2", projectId := "B", role := "credential:user" }
    (by simp) rfl (by decide) (by decide)

/-! ## Counting lemmas for C2 -/

theorem countP_split {α : Type} (l : List α) (p q : α → Bool) :
    l.countP p = l.countP (fun a => p a && q a) + l.countP (fun a => p a && !q a) := by
  induction l with
  | nil => simp
  | cons a t ih =>
    by_cases hp : p a = true <;> by_cases hq : q a = true <;>
      simp [List.countP_cons, hp, hq, ih] <;> omega

theorem countP_le_one_of_pairwise {α : Type} {P : α → Bool} {l : List α}
    (h : l.Pairwise (fun a b => ¬(P a = true ∧ P b = true))) : l.countP P ≤ 1 := by
  induction l with
  | nil => simp
  | cons a t ih =>
    rw [List.countP_cons]
    rcases List.pairwise_cons.mp h with ⟨ha, ht⟩
    by_cases hp : P a = true
    · have hz : t.countP P = 0 := List.countP_eq_zero.mpr (fun b hb hPb => ha b hb ⟨hp, hPb⟩)
      simp [hz, hp]
    · simpa [hp] using ih ht

theorem uniqueCredProj_countP_pair_le_one {rows : List Sharing} (hU : UniqueCredProj rows)
    (cid pid : String) :
    rows.countP (fun r => r.credentialsId == cid && r.projectId == pid) ≤ 1 :=
  countP_le_one_of_pairwise (hU.imp (fun {a b} hab hPab => by
    obtain ⟨ha, hb⟩ := hPab
    simp only [Bool.and_eq_true, beq_iff_eq] at ha hb
    exact hab ⟨ha.1.trans hb.1.symm, ha.2.trans hb.2.symm⟩))

theorem atMostOneOwner_countP {rows : List Sharing} (hO : AtMostOneOwner rows) (c : String) :
    ownerCountFor rows c ≤ 1 :=
  countP_le_one_of_pairwise (hO.imp (fun {a b} hab hPab => by
    obtain ⟨ha, hb⟩ := hPab
    simp only [Bool.and_eq_true, beq_iff_eq] at ha hb
    exact hab ⟨ha.2, hb.2, ha.1.trans hb.1.symm⟩))

theorem owner_rows_at_A {rows : List Sharing} {A B c : String} (hO : AtMostOneOwner rows)
    (hc : c ∈ ownedCredentialIdsOf rows A B) :
    ∀ r ∈ rows, r.credentialsId = c → r.role = ownerRole → r.projectId = A := by
  obtain ⟨s, hs, hsA, hsrole, hscred⟩ := mem_ownedCredentialIdsOf.mp hc
  intro r hr hcred hrole
  by_cases hrs : r = s
  · rw [hrs, hsA]
  · have hsym : Symmetric (fun r s : Sharing =>
        ¬(r.role = ownerRole ∧ s.role = ownerRole ∧ r.credentialsId = s.credentialsId)) :=
      fun a b hab ⟨h1, h2, h3⟩ => hab ⟨h2, h1, h3.symm⟩
    exact absurd ⟨hrole, hsrole, hcred.trans hscred.symm⟩ (hO.forall hsym hr hs hrs)

theorem upsertOwner_countP_frame {rows : List Sharing} {cid pid : String} {P : Sharing → Bool}
    (h1 : ∀ r : Sharing, r.credentialsId = cid → r.projectId = pid →
      P r = P { r with role := ownerRole })
    (h2 : P { credentialsId := cid, projectId := pid, role := ownerRole } = false) :
    (upsertOwner rows cid pid).countP P = rows.countP P := by
  unfold upsertOwner
  split
  · rw [List.countP_map]
    refine List.countP_congr (fun r _ => ?_)
    simp only [Function.comp_apply]
    by_cases hc : (r.credentialsId == cid && r.projectId == pid) = true
    · rw [if_pos hc]
      simp only [Bool.and_eq_true, beq_iff_eq] at hc
      rw [← h1 r hc.1 hc.2]
    · rw [if_neg hc]
  · rw [List.countP_append]
    simp [List.countP_cons, h2]

theorem upsertOwner_countP_succ {rows : List Sharing} {cid pid : String} {P : Sharing → Bool}
    (hU1 : rows.countP (fun r => r.credentialsId == cid && r.projectId == pid) ≤ 1)
    (hnon : ∀ r ∈ rows, r.credentialsId = cid → r.projectId = pid → r.role ≠ ownerRole)
    (hPnew : P { credentialsId := cid, projectId := pid, role := ownerRole } = true)
    (hPmap : ∀ r : Sharing, r.credentialsId = cid → r.projectId = pid →
      P { r with role := ownerRole } = true)
    (hPfalse : ∀ r : Sharing, r.credentialsId = cid → r.projectId = pid → r.role ≠ ownerRole →
      P r = false) :
    (upsertOwner rows cid pid).countP P = rows.countP P + 1 := by
  unfold upsertOwner
  split
  next hany =>
    rw [List.countP_map]
    simp only [Function.comp_def]
    have e1 := countP_split rows (fun r => P
      (if r.credentialsId == cid && r.projectId == pid then { r with role := ownerRole } else r))
      (fun r => r.credentialsId == cid && r.projectId == pid)
    have e2 : rows.countP (fun r => P
        (if r.credentialsId == cid && r.projectId == pid then { r with role := ownerRole }
         else r) && (r.credentialsId == cid && r.projectId == pid)) =
        rows.countP (fun r => r.credentialsId == cid && r.projectId == pid) := by
      refine List.countP_congr (fun r _ => ?_)
      by_cases hc : (r.credentialsId == cid && r.projectId == pid) = true
      · have hc' := hc
        simp only [Bool.and_eq_true, beq_iff_eq] at hc'
        simp [hc, hPmap r hc'.1 hc'.2]
      · simp [hc]
    have e3 : rows.countP (fun r => P
        (if r.credentialsId == cid && r.projectId == pid then { r with role := ownerRole }
         else r) && !(r.credentialsId == cid && r.projectId == pid)) =
        rows.countP (fun r => P r && !(r.credentialsId == cid && r.projectId == pid)) := by
      refine List.countP_congr (fun r _ => ?_)
      by_cases hc : (r.credentialsId == cid && r.projectId == pid) = true
      · simp [hc]
      · simp [hc]
    have e4 : rows.countP (fun r => r.credentialsId == cid && r.projectId == pid) = 1 := by
      have hpos : 0 < rows.countP (fun r => r.credentialsId == cid && r.projectId == pid) := by
        obtain ⟨r, hr, hc⟩ := List.any_eq_true.mp hany
        exact List.countP_pos_iff.mpr ⟨r, hr, hc⟩
      omega
    have e5 := countP_split rows P (fun r => r.credentialsId == cid && r.projectId == pid)
    have e6 : rows.countP (fun r => P r && (r.credentialsId == cid && r.projectId == pid)) = 0 := by
      refine List.countP_eq_zero.mpr (fun r hr hc => ?_)
      simp only [Bool.and_eq_true, beq_iff_eq] at hc
      have := hPfalse r hc.2.1 hc.2.2 (hnon r hr hc.2.1 hc.2.2)
      rw [this] at hc
      exact Bool.false_ne_true hc.1
    omega
  next =>
    rw [List.countP_append]
    simp [List.countP_cons, hPnew]

theorem uniqueCredProj_upsertOwner {rows : List Sharing} {cid pid : String}
    (hU : UniqueCredProj rows) : UniqueCredProj (upsertOwner rows cid pid) := by
  unfold upsertOwner UniqueCredProj
  split
  next =>
    rw [List.pairwise_map]
    refine hU.imp (fun {a b} hab hcc => hab ?_)
    constructor
    · have h1 : ∀ r : Sharing,
          ((if r.credentialsId == cid && r.projectId == pid then { r with role := ownerRole }
            else r) : Sharing).credentialsId = r.credentialsId := by
        intro r; split <;> rfl
      rw [← h1 a, ← h1 b]
      exact hcc.1
    · have h2 : ∀ r : Sharing,
          ((if r.credentialsId == cid && r.projectId == pid then { r with role := ownerRole }
            else r) : Sharing).projectId = r.projectId := by
        intro r; split <;> rfl
      rw [← h2 a, ← h2 b]
      exact hcc.2
  next hany =>
    rw [List.pairwise_append]
    refine ⟨hU, by simp, ?_⟩
    intro a ha b hb
    have hb' : b = { credentialsId := cid, projectId := pid, role := ownerRole } := by
      simpa using hb
    subst hb'
    intro hcc
    exact hany (List.any_eq_true.mpr ⟨a, ha, by simp [hcc.1, hcc.2]⟩)

theorem mem_upsertOwner_ne_cred {rows : List Sharing} {cid pid c' : String} (hne : c' ≠ cid)
    {x : Sharing} (hx : x ∈ upsertOwner rows cid pid) (hcred : x.credentialsId = c') :
    x ∈ rows := by
  unfold upsertOwner at hx
  split at hx
  · obtain ⟨r, hr, hfr⟩ := List.mem_map.mp hx
    by_cases hc : (r.credentialsId == cid && r.projectId == pid) = true
    · rw [if_pos hc] at hfr
      simp only [Bool.and_eq_true, beq_iff_eq] at hc
      exact absurd (by rw [← hcred, ← hfr]; exact hc.1) hne
    · rw [if_neg hc] at hfr
      exact hfr ▸ hr
  · rcases List.mem_append.mp hx with h | h
    · exact h
    · have hx' : x = { credentialsId := cid, projectId := pid, role := ownerRole } := by
        simpa using h
      exact absurd (by rw [← hcred, hx'] : c' = cid) hne

theorem makeOwner_countP_frame {pid : String} {P : Sharing → Bool} :
    ∀ (cids : List String) (rows : List Sharing),
    (∀ c ∈ cids,
      (∀ r : Sharing, r.credentialsId = c → r.projectId = pid →
        P r = P { r with role := ownerRole }) ∧
      P { credentialsId := c, projectId := pid, role := ownerRole } = false) →
    (makeOwner rows cids pid).countP P = rows.countP P
  | [], _, _ => rfl
  | c :: rest, rows, h => by
    have hstep := @upsertOwner_countP_frame rows c pid P
      (h c (by simp)).1 (h c (by simp)).2
    calc (makeOwner (upsertOwner rows c pid) rest pid).countP P
        = (upsertOwner rows c pid).countP P :=
          makeOwner_countP_frame rest _ (fun c' hc' => h c' (by simp [hc']))
      _ = rows.countP P := hstep

theorem makeOwner_countP_add {pid : String} {P : Sharing → Bool} :
    ∀ (cids : List String) (rows : List Sharing),
    cids.Nodup → UniqueCredProj rows →
    (∀ c ∈ cids, ∀ r ∈ rows, r.credentialsId = c → r.projectId = pid → r.role ≠ ownerRole) →
    (∀ c ∈ cids, P { credentialsId := c, projectId := pid, role := ownerRole } = true) →
    (∀ c ∈ cids, ∀ r : Sharing, r.credentialsId = c → r.projectId = pid →
      P { r with role := ownerRole } = true) →
    (∀ c ∈ cids, ∀ r : Sharing, r.credentialsId = c → r.projectId = pid → r.role ≠ ownerRole →
      P r = false) →
    (makeOwner rows cids pid).countP P = rows.countP P + cids.length
  | [], _, _, _, _, _, _, _ => by simp [makeOwner]
  | c :: rest, rows, hnd, hU, hnon, hPnew, hPmap, hPfalse => by
    obtain ⟨hcnotin, hndrest⟩ := List.nodup_cons.mp hnd
    have hstep := upsertOwner_countP_succ (P := P)
      (uniqueCredProj_countP_pair_le_one hU c pid)
      (fun r hr => hnon c (by simp) r hr)
      (hPnew c (by simp)) (hPmap c (by simp)) (hPfalse c (by simp))
    have hrest := makeOwner_countP_add rest (upsertOwner rows c pid) hndrest
      (uniqueCredProj_upsertOwner hU)
      (fun c' hc' r hr hcred hproj =>
        hnon c' (by simp [hc']) r
          (mem_upsertOwner_ne_cred (fun he => hcnotin (by rw [← he]; exact hc')) hr hcred)
          hcred hproj)
      (fun c' hc' => hPnew c' (by simp [hc']))
      (fun c' hc' => hPmap c' (by simp [hc']))
      (fun c' hc' => hPfalse c' (by simp [hc']))
    show (makeOwner (upsertOwner rows c pid) rest pid).countP P =
      rows.countP P + (c :: rest).length
    rw [hrest, hstep, List.length_cons]
    omega

theorem makeOwner_countP_single {pid : String} {P : Sharing → Bool} :
    ∀ (cids : List String) (rows : List Sharing) (c : String), c ∈ cids → cids.Nodup →
    UniqueCredProj rows →
    (∀ r ∈ rows, r.credentialsId = c → r.projectId = pid → r.role ≠ ownerRole) →
    P { credentialsId := c, projectId := pid, role := ownerRole } = true →
    (∀ r : Sharing, r.credentialsId = c → r.projectId = pid →
      P { r with role := ownerRole } = true) →
    (∀ r : Sharing, r.credentialsId = c → r.projectId = pid → r.role ≠ ownerRole →
      P r = false) →
    (∀ c' ∈ cids, c' ≠ c →
      (∀ r : Sharing, r.credentialsId = c' → r.projectId = pid →
        P r = P { r with role := ownerRole }) ∧
      P { credentialsId := c', projectId := pid, role := ownerRole } = false) →
    (makeOwner rows cids pid).countP P = rows.countP P + 1
  | [], _, _, hc, _, _, _, _, _, _, _ => absurd hc (by simp)
  | c0 :: rest, rows, c, hc, hnd, hU, hnon, hPnew, hPmap, hPfalse, hother => by
    obtain ⟨h0notin, hndrest⟩ := List.nodup_cons.mp hnd
    rcases List.mem_cons.mp hc with he | hmem
    · subst he
      have hstep := upsertOwner_countP_succ (P := P)
        (uniqueCredProj_countP_pair_le_one hU c pid) hnon hPnew hPmap hPfalse
      have hframe := makeOwner_countP_frame rest (upsertOwner rows c pid)
        (fun c' hc' => hother c' (by simp [hc'])
          (fun heq => h0notin (by rw [← heq]; exact hc')))
      show (makeOwner (upsertOwner rows c pid) rest pid).countP P = rows.countP P + 1
      rw [hframe, hstep]
    · have hne : c ≠ c0 := fun he => h0notin (by rw [← he]; exact hmem)
      have hstep := @upsertOwner_countP_frame rows c0 pid P
        (hother c0 (by simp) hne.symm).1 (hother c0 (by simp) hne.symm).2
      have hrec := makeOwner_countP_single rest (upsertOwner rows c0 pid) c hmem hndrest
        (uniqueCredProj_upsertOwner hU)
        (fun r hr hcred hproj => hnon r (mem_upsertOwner_ne_cred hne hr hcred) hcred hproj)
        hPnew hPmap hPfalse
        (fun c' hc' hc'ne => hother c' (by simp [hc']) hc'ne)
      show (makeOwner (upsertOwner rows c0 pid) rest pid).countP P = rows.countP P + 1
      rw [hrec, hstep]

theorem length_ownedCredentialIdsOf (rows : List Sharing) (A B : String) :
    (ownedCredentialIdsOf rows A B).length =
      rows.countP (fun r => r.projectId == A && r.role == ownerRole) := by
  unfold ownedCredentialIdsOf fromProjectRows allSharedFor
  rw [List.length_map, List.filter_filter, List.filter_filter, ← List.countP_eq_length_filter]
  refine List.countP_congr (fun r _ => ?_)
  by_cases h1 : (r.projectId == A) = true <;> by_cases h2 : (r.role == ownerRole) = true <;>
    simp [h1, h2]

theorem countP_inserted_zero (rows : List Sharing) (A B : String) (P : Sharing → Bool)
    (hP : ∀ x : Sharing, P x = true → x.role = ownerRole) :
    ((sharedCredentialsToTransfer rows A B).map
      (fun r =>
        ({ credentialsId := r.credentialsId, projectId := B, role := r.role } : Sharing))).countP
      P = 0 := by
  refine List.countP_eq_zero.mpr (fun x hx hPx => ?_)
  obtain ⟨s, hs, hsx⟩ := List.mem_map.mp hx
  have hrole := (mem_sharedCredentialsToTransfer.mp hs).2.2.1
  have hxs : x.role = s.role := by rw [← hsx]
  exact hrole (by rw [← hxs]; exact hP x hPx)

theorem hOnon_of (rows : List Sharing) (A B : String) (hAB : A ≠ B) (hO : AtMostOneOwner rows) :
    ∀ c ∈ ownedCredentialIdsOf rows A B, ∀ r ∈ rows,
      r.credentialsId = c → r.projectId = B → r.role ≠ ownerRole := by
  intro c hc r hr hcred hproj hrole
  exact hAB (by rw [← owner_rows_at_A hO hc r hr hcred hrole, hproj])

theorem transferAll_ownerCountFor (rows : List Sharing) (A B : String)
    (hAB : A ≠ B) (hU : UniqueCredProj rows) (hO : AtMostOneOwner rows) (c : String) :
    ownerCountFor (transferAll rows A B) c ≤ 1 := by
  have hnd := nodup_ownedCredentialIdsOf (A := A) (B := B) hO
  have hnon := hOnon_of rows A B hAB hO
  have hBA : (B == A) = false := beq_eq_false_iff_ne.mpr (Ne.symm hAB)
  unfold ownerCountFor transferAll
  rw [List.countP_append,
    countP_inserted_zero rows A B _ (fun x hx => by
      simp only [Bool.and_eq_true, beq_iff_eq] at hx
      exact hx.2),
    Nat.add_zero]
  unfold deleteByIds
  rw [List.countP_filter]
  by_cases hc : c ∈ ownedCredentialIdsOf rows A B
  · have hcont : (ownedCredentialIdsOf rows A B).contains c = true := (contains_eq_mem _ _).mpr hc
    have hcongr : (makeOwner rows (ownedCredentialIdsOf rows A B) B).countP
        (fun a => (a.credentialsId == c && a.role == ownerRole) &&
          !((ownedCredentialIdsOf rows A B).contains a.credentialsId && (a.projectId == A))) =
        (makeOwner rows (ownedCredentialIdsOf rows A B) B).countP
        (fun a => (a.credentialsId == c && a.role == ownerRole) && !(a.projectId == A)) := by
      refine List.countP_congr (fun r _ => ?_)
      by_cases hcr : (r.credentialsId == c) = true
      · have hcr' : (ownedCredentialIdsOf rows A B).contains r.credentialsId = true := by
          rw [beq_iff_eq.mp hcr]
          exact hcont
        simp only [hcr', Bool.true_and]
      · simp only [hcr, Bool.false_and]
    rw [hcongr]
    have h1 := @makeOwner_countP_single B
      (fun a => (a.credentialsId == c && a.role == ownerRole) && !(a.projectId == A))
      (ownedCredentialIdsOf rows A B) rows c hc hnd hU
      (hnon c hc)
      (by simp [hBA])
      (fun r hcred hproj => by simp [hcred, hproj, hBA])
      (fun r hcred hproj hrole => by simp [hrole])
      (fun c' hc' hne =>
        ⟨fun r hcred hproj => by
          have hf : (r.credentialsId == c) = false := by
            rw [hcred]
            exact beq_eq_false_iff_ne.mpr hne
          simp [hf],
         by simp [beq_eq_false_iff_ne.mpr hne]⟩)
    have h0 : rows.countP
        (fun a => (a.credentialsId == c && a.role == ownerRole) && !(a.projectId == A)) = 0 := by
      refine List.countP_eq_zero.mpr (fun r hr h => ?_)
      simp only [Bool.and_eq_true, Bool.not_eq_true', beq_iff_eq, beq_eq_false_iff_ne] at h
      exact h.2 (owner_rows_at_A hO hc r hr h.1.1 h.1.2)
    rw [h1, h0]
  · have hcont : (ownedCredentialIdsOf rows A B).contains c = false :=
      (contains_eq_false_iff _ _).mpr hc
    have hcongr : (makeOwner rows (ownedCredentialIdsOf rows A B) B).countP
        (fun a => (a.credentialsId == c && a.role == ownerRole) &&
          !((ownedCredentialIdsOf rows A B).contains a.credentialsId && (a.projectId == A))) =
        (makeOwner rows (ownedCredentialIdsOf rows A B) B).countP
        (fun a => a.credentialsId == c && a.role == ownerRole) := by
      refine List.countP_congr (fun r _ => ?_)
      by_cases hcr : (r.credentialsId == c) = true
      · have hcr' : (ownedCredentialIdsOf rows A B).contains r.credentialsId = false := by
          rw [beq_iff_eq.mp hcr]
          exact hcont
        simp only [hcr', Bool.false_and, Bool.not_false, Bool.and_true]
      · simp only [hcr, Bool.false_and]
    rw [hcongr]
    have hframe := @makeOwner_countP_frame B
      (fun a => a.credentialsId == c && a.role == ownerRole)
      (ownedCredentialIdsOf rows A B) rows
      (fun c' hc' =>
        have hne : c' ≠ c := fun he => hc (by rw [← he]; exact hc')
        ⟨fun r hcred hproj => by
          have hf : (r.credentialsId == c) = false := by
            rw [hcred]
            exact beq_eq_false_iff_ne.mpr hne
          simp [hf],
         by simp [beq_eq_false_iff_ne.mpr hne]⟩)
    rw [hframe]
    exact atMostOneOwner_countP hO c

theorem transferAll_ownerCountIn (rows : List Sharing) (A B : String)
    (hAB : A ≠ B) (hU : UniqueCredProj rows) (hO : AtMostOneOwner rows) :
    ownerCountIn (transferAll rows A B) A B = ownerCountIn rows A B := by
  have hnd := nodup_ownedCredentialIdsOf (A := A) (B := B) hO
  have hnon := hOnon_of rows A B hAB hO
  have hBA : (B == A) = false := beq_eq_false_iff_ne.mpr (Ne.symm hAB)
  unfold ownerCountIn transferAll
  rw [List.countP_append,
    countP_inserted_zero rows A B _ (fun x hx => by
      simp only [Bool.and_eq_true, Bool.or_eq_true, beq_iff_eq] at hx
      exact hx.2),
    Nat.add_zero]
  unfold deleteByIds
  rw [List.countP_filter]
  have esplitK := countP_split (makeOwner rows (ownedCredentialIdsOf rows A B) B)
    (fun a => ((a.projectId == A || a.projectId == B) && a.role == ownerRole) &&
      !((ownedCredentialIdsOf rows A B).contains a.credentialsId && (a.projectId == A)))
    (fun a => a.projectId == A)
  have hX1 : (makeOwner rows (ownedCredentialIdsOf rows A B) B).countP
      (fun a => (((a.projectId == A || a.projectId == B) && a.role == ownerRole) &&
        !((ownedCredentialIdsOf rows A B).contains a.credentialsId && (a.projectId == A))) &&
        (a.projectId == A)) = 0 := by
    refine List.countP_eq_zero.mpr (fun r hr h => ?_)
    simp only [Bool.and_eq_true] at h
    obtain ⟨⟨⟨hor, hrole'⟩, hkeep⟩, hprojA'⟩ := h
    have hprojA : r.projectId = A := beq_iff_eq.mp hprojA'
    have hrole : r.role = ownerRole := beq_iff_eq.mp hrole'
    have hrrows : r ∈ rows := by
      rcases mem_makeOwner _ _ hr with h' | h'
      · exact h'
      · exact absurd (hprojA ▸ h'.1) hAB
    have hin : r.credentialsId ∈ ownedCredentialIdsOf rows A B :=
      mem_ownedCredentialIdsOf.mpr ⟨r, hrrows, hprojA, hrole, rfl⟩
    rcases (by simpa using hkeep :
        r.credentialsId ∉ ownedCredentialIdsOf rows A B ∨ ¬r.projectId = A) with hb | hb
    · exact hb hin
    · exact hb hprojA
  have hX2 : (makeOwner rows (ownedCredentialIdsOf rows A B) B).countP
      (fun a => (((a.projectId == A || a.projectId == B) && a.role == ownerRole) &&
        !((ownedCredentialIdsOf rows A B).contains a.credentialsId && (a.projectId == A))) &&
        !(a.projectId == A)) =
      (makeOwner rows (ownedCredentialIdsOf rows A B) B).countP
      (fun a => (a.projectId == B) && a.role == ownerRole) := by
    refine List.countP_congr (fun r _ => ?_)
    by_cases hA : (r.projectId == A) = true
    · have hB : (r.projectId == B) = false := by
        rw [beq_iff_eq.mp hA]
        exact beq_eq_false_iff_ne.mpr hAB
      simp only [hA, hB, Bool.not_true, Bool.and_false, Bool.false_and]
    · have hA' : (r.projectId == A) = false := by
        cases hAA : (r.projectId == A)
        · rfl
        · exact absurd hAA hA
      simp only [hA', Bool.false_or, Bool.and_false, Bool.not_false, Bool.and_true]
  have e1 : (makeOwner rows (ownedCredentialIdsOf rows A B) B).countP
      (fun r => (r.projectId == A || r.projectId == B) && r.role == ownerRole) =
      rows.countP (fun r => (r.projectId == A || r.projectId == B) && r.role == ownerRole) +
        (ownedCredentialIdsOf rows A B).length :=
    makeOwner_countP_add _ rows hnd hU hnon
      (fun c _ => by simp)
      (fun c _ r hcred hproj => by simp [hproj])
      (fun c _ r hcred hproj hrole => by simp [hrole])
  have esplitR := countP_split (makeOwner rows (ownedCredentialIdsOf rows A B) B)
    (fun r => (r.projectId == A || r.projectId == B) && r.role == ownerRole)
    (fun a => a.projectId == A)
  have ecA : (makeOwner rows (ownedCredentialIdsOf rows A B) B).countP
      (fun a => ((a.projectId == A || a.projectId == B) && a.role == ownerRole) &&
        (a.projectId == A)) =
      (makeOwner rows (ownedCredentialIdsOf rows A B) B).countP
      (fun a => (a.projectId == A) && a.role == ownerRole) := by
    refine List.countP_congr (fun r _ => ?_)
    by_cases hA : (r.projectId == A) = true
    · simp only [hA, Bool.true_or, Bool.true_and, Bool.and_true]
    · have hA' : (r.projectId == A) = false := by
        cases hAA : (r.projectId == A)
        · rfl
        · exact absurd hAA hA
      simp only [hA', Bool.and_false, Bool.false_and]
  have ecB : (makeOwner rows (ownedCredentialIdsOf rows A B) B).countP
      (fun a => ((a.projectId == A || a.projectId == B) && a.role == ownerRole) &&
        !(a.projectId == A)) =
      (makeOwner rows (ownedCredentialIdsOf rows A B) B).countP
      (fun a => (a.projectId == B) && a.role == ownerRole) := by
    refine List.countP_congr (fun r _ => ?_)
    by_cases hA : (r.projectId == A) = true
    · have hB : (r.projectId == B) = false := by
        rw [beq_iff_eq.mp hA]
        exact beq_eq_false_iff_ne.mpr hAB
      simp only [hA, hB, Bool.not_true, Bool.and_false, Bool.false_and]
    · have hA' : (r.projectId == A) = false := by
        cases hAA : (r.projectId == A)
        · rfl
        · exact absurd hAA hA
      simp only [hA', Bool.false_or, Bool.not_false, Bool.and_true]
  have eA : (makeOwner rows (ownedCredentialIdsOf rows A B) B).countP
      (fun a => (a.projectId == A) && a.role == ownerRole) =
      rows.countP (fun a => (a.projectId == A) && a.role == ownerRole) :=
    makeOwner_countP_frame _ rows (fun c _ =>
      ⟨fun r hcred hproj => by simp [hproj, hBA],
       by simp [hBA]⟩)
  have en : rows.countP (fun a => (a.projectId == A) && a.role == ownerRole) =
      (ownedCredentialIdsOf rows A B).length := (length_ownedCredentialIdsOf rows A B).symm
  omega

/-! ## C2: ownership invariant of transfer -/

/-- C2: for every pair of distinct projects and every row table with the
database unique key and at most one owner row per credential, `transferAll`
preserves the total number of owner rows across the two projects and leaves
no credential with more than one owner row. -/
theorem transferAll_owner_invariant (rows : List Sharing) (A B : String)
    (hAB : A ≠ B) (hU : UniqueCredProj rows) (hO : AtMostOneOwner rows) :
    ownerCountIn (transferAll rows A B) A B = ownerCountIn rows A B ∧
    ∀ c, ownerCountFor (transferAll rows A B) c ≤ 1 :=
  ⟨transferAll_ownerCountIn rows A B hAB hU hO,
   fun c => transferAll_ownerCountFor rows A B hAB hU hO c⟩

theorem transferAll_owner_invariant_witness :
    ownerCountIn
        (transferAll
          [{ credentialsId := "c1", projectId := "A", role := "credential:owner" },
           { credentialsId := "c1", projectId := "B", role := "credential:editor" },
           { credentialsId := "c2", projectId := "A", role := "credential:owner" }]
          "A" "B") "A" "B" =
      ownerCountIn
        [{ credentialsId := "c1", projectId := "A", role := "credential:owner" },
         { credentialsId := "c1", projectId := "B", role := "credential:editor" },
         { credentialsId := "c2", projectId := "A", role := "credential:owner" }] "A" "B" :=
  (transferAll_owner_invariant
      [{ credentialsId := "c1", projectId := "A", role := "credential:owner" },
       { credentialsId := "c1", projectId := "B", role := "credential:editor" },
       { credentialsId := "c2", projectId := "A", role := "credential:owner" }]
      "A" "B" (by decide) (by unfold UniqueCredProj; decide)
      (by unfold AtMostOneOwner; decide)).1

/-! ## Users, projects and the repository environment -/

/-- A user: identifier and global scopes (`user.hasGlobalScope`). -/
structure User where
  id : String
  globalScopes : List String
  deriving DecidableEq

/-- `user.hasGlobalScope(scope)`. -/
def hasGlobalScope (u : User) (s : String) : Bool := u.globalScopes.contains s

/-- A project: identifier, kind string (`personal` or `team`), and the
personal owner when personal. -/
structure Project where
  id : String
  ptype : String
  personalOwnerId : Option String
  deriving DecidableEq

/-- A `ProjectRelation` membership edge. -/
structure ProjectRelationRec where
  projectId : String
  role : String
  deriving DecidableEq

/-- A credential record; `data` is the stored encrypted blob. -/
structure CredentialsEntity where
  id : String
  name : String
  ctype : String
  isManaged : Bool
  data : String
  deriving DecidableEq

/-- A `SharedCredentials` row joined with its credential, as returned by
`getSharing`. -/
structure SharedCredentialRec where
  role : String
  projectId : String
  credentials : CredentialsEntity
  deriving DecidableEq

/-- The injected collaborators of `CredentialsService` (repositories,
project service, cipher, role service), abstracted as pure query functions
over the persistent state. -/
structure Env where
  registry : Registry
  fuel : Nat
  decrypt : String → CredPayload
  findCredentialsForUser : User → List String → List CredentialsEntity
  findPersonalOwnerForWorkflow : String → Option User
  findPersonalOwnerForProject : String → Option User
  findAllPersonalCredentials : List CredentialsEntity
  findAllCredentialsForWorkflow : String → List CredentialsEntity
  findAllCredentialsForProject : String → List CredentialsEntity
  addScopes : User → CredentialsEntity → List String
  getProject : String → Option Project
  getPersonalProject : User → Option Project
  getCredentialIdsByUserAndRole : List String → List String → List String
  findMany : Option String → Option (List String) → List CredentialsEntity
  findSharingAny : String → Option SharedCredentialRec
  findOwnerSharingForUser : User → String → Option SharedCredentialRec
  projectRelationsForUser : User → List ProjectRelationRec

/-! ## getCredentialsAUserCanUseInAWorkflow -/

/-- `CredentialsService.findAllCredentialIdsForWorkflow`: if the workflow
lives in a personal project whose owner holds the global `credential:read`
scope, all personal credentials are usable; otherwise only the credentials
of the projects the workflow belongs to. -/
def findAllCredentialIdsForWorkflow (env : Env) (workflowId : String) :
    List CredentialsEntity :=
  match env.findPersonalOwnerForWorkflow workflowId with
  | some user =>
    if hasGlobalScope user "credential:read" then env.findAllPersonalCredentials
    else env.findAllCredentialsForWorkflow workflowId
  | none => env.findAllCredentialsForWorkflow workflowId

/-- `CredentialsService.findAllCredentialIdsForProject`, same bypass applied
to the project personal owner. -/
def findAllCredentialIdsForProject (env : Env) (projectId : String) :
    List CredentialsEntity :=
  match env.findPersonalOwnerForProject projectId with
  | some user =>
    if hasGlobalScope user "credential:read" then env.findAllPersonalCredentials
    else env.findAllCredentialsForProject projectId
  | none => env.findAllCredentialsForProject projectId

/-- The `options` argument of `getCredentialsAUserCanUseInAWorkflow`. -/
inductive WorkflowContext where
  | workflow : String → WorkflowContext
  | project : String → WorkflowContext

/-- The credential set reachable from the workflow or project side. -/
def workflowSideCredentials (env : Env) (opts : WorkflowContext) : List CredentialsEntity :=
  match opts with
  | .workflow wid => findAllCredentialIdsForWorkflow env wid
  | .project pid => findAllCredentialIdsForProject env pid

/-- An entry of the result of `getCredentialsAUserCanUseInAWorkflow`. -/
structure UsableCredential where
  id : String
  name : String
  ctype : String
  scopes : List String
  isManaged : Bool
  deriving DecidableEq

/-- `CredentialsService.getCredentialsAUserCanUseInAWorkflow`: intersect the
credentials the user can read directly with the credentials reachable from
the workflow or project, then annotate with scopes. -/
def getCredentialsAUserCanUseInAWorkflow (env : Env) (user : User)
    (opts : WorkflowContext) : List UsableCredential :=
  let allCredentials := env.findCredentialsForUser user ["credential:read"]
  let allCredentialsForWorkflow := (workflowSideCredentials env opts).map (fun c => c.id)
  let intersection := allCredentials.filter
    (fun c => allCredentialsForWorkflow.contains c.id)
  intersection.map (fun c =>
    { id := c.id, name := c.name, ctype := c.ctype,
      scopes := env.addScopes user c, isManaged := c.isManaged })

/-! ## getMany -/

/-- The personal-project rewrite of the non-`credential:list` branch of
`getMany` (lines 119-128 of the source): a filter naming a personal project
is replaced by the caller own personal project id. -/
def getManyEffectiveProjectFilter (env : Env) (user : User)
    (filterProjectId : Option String) : Option String :=
  match filterProjectId with
  | some pid =>
    match env.getProject pid with
    | some project =>
      if project.ptype == "personal" then (env.getPersonalProject user).map (fun p => p.id)
      else some pid
    | none => some pid
  | none => none

/-- `CredentialsService.getMany`, restricted to the project-id filter shape
the claims are about: holders of the global `credential:list` scope query
all credentials (with the personal-owner filter removal applied when scopes
are requested); everyone else queries only the credentials reachable via
their own `credential:read` sharings, with the personal-project filter
rewrite applied first. -/
def getMany (env : Env) (user : User) (includeScopes : Bool)
    (filterProjectId : Option String) : List CredentialsEntity :=
  let returnAll := hasGlobalScope user "credential:list"
  let filterProjectId :=
    if includeScopes && returnAll then
      match filterProjectId with
      | some pid =>
        match (env.projectRelationsForUser user).find? (fun rel => rel.projectId == pid) with
        | some rel => if rel.role == "project:personalOwner" then none else some pid
        | none => some pid
      | none => none
    else filterProjectId
  if returnAll then env.findMany filterProjectId none
  else
    let effective := getManyEffectiveProjectFilter env user filterProjectId
    let ids := env.getCredentialIdsByUserAndRole [user.id] ["credential:read"]
    env.findMany effective (some ids)

/-! ## getOne -/

/-- `CredentialsService.getSharing`: a caller holding all the given global
scopes sees any sharing of the credential; otherwise only an owner sharing
reached through a personal project membership. -/
def getSharing (env : Env) (user : User) (credentialId : String)
    (globalScopes : List String) : Option SharedCredentialRec :=
  if globalScopes.all (fun s => hasGlobalScope user s) then env.findSharingAny credentialId
  else env.findOwnerSharingForUser user credentialId

/-- The object `getOne` returns: the credential metadata with the stored
encrypted `data` field stripped, and optionally the decrypted redacted
payload. -/
structure GetOneResult where
  id : String
  name : String
  ctype : String
  isManaged : Bool
  data : Option CredPayload

/-- The errors `getOne` can raise. -/
inductive GetOneError where
  | notFound
  | redactFailure
  deriving DecidableEq

/-- `CredentialsService.getOne`: with `includeDecryptedData` the sharing is
fetched and the decrypted payload is redacted into the result; otherwise
(or when that sharing is absent) the credential is returned without data,
and a missing sharing raises `NotFound`. -/
def getOne (env : Env) (user : User) (credentialId : String)
    (includeDecryptedData : Bool) : Except GetOneError GetOneResult :=
  let sharing0 : Option SharedCredentialRec :=
    if includeDecryptedData then getSharing env user credentialId ["credential:read"] else none
  match sharing0 with
  | some sharing =>
    match redact env.registry env.fuel sharing.credentials.ctype
        (env.decrypt sharing.credentials.data) with
    | some decryptedData =>
      .ok { id := sharing.credentials.id, name := sharing.credentials.name,
            ctype := sharing.credentials.ctype, isManaged := sharing.credentials.isManaged,
            data := some decryptedData }
    | none => .error .redactFailure
  | none =>
    match getSharing env user credentialId ["credential:read"] with
    | some sharing =>
      .ok { id := sharing.credentials.id, name := sharing.credentials.name,
            ctype := sharing.credentials.ctype, isManaged := sharing.credentials.isManaged,
            data := none }
    | none => .error .notFound

/-! ## prepareUpdateData -/

/-- JavaScript truthiness of a payload value. -/
def truthy : CredValue → Bool
  | .str s => !(s == "")
  | .obj _ => true
  | .undef => false

/-- JavaScript property assignment `p[k] = v` on the top level of a
payload. -/
def setKeyTop : CredPayload → String → CredValue → CredPayload
  | .nil, k, v => .cons k v .nil
  | .cons k0 v0 rest, k, v =>
    if k0 == k then .cons k0 v rest else .cons k0 v0 (setKeyTop rest k v)

/-- The caller-submitted credential properties of an update request (the
fields `prepareUpdateData` reads). -/
structure CredentialUpdateRequest where
  name : Option String
  data : Option CredPayload

/-- `CredentialsService.prepareUpdateData`: unredact the submitted data
against the previously saved decrypted data, then restore the stored
`oauthTokenData` whenever it is truthy (entity validation, which does not
touch `data`, is omitted).  `none` models the TypeError of assigning into
absent `data`. -/
def prepareUpdateData (data : CredentialUpdateRequest) (decryptedData : CredPayload) :
    Option CredentialUpdateRequest :=
  let mergedData :=
    match data.data with
    | some d => { data with data := some (unredact d decryptedData) }
    | none => data
  match lookupKey decryptedData "oauthTokenData" with
  | some w =>
    if truthy w then
      match mergedData.data with
      | some d => some { mergedData with data := some (setKeyTop d "oauthTokenData" w) }
      | none => none
    else some mergedData
  | none => some mergedData

/-! ## C5: intersection correctness -/

/-- C5: every credential returned by `getCredentialsAUserCanUseInAWorkflow`
is among the credentials the user can read directly via `credential:read`,
and among the credentials reachable from the workflow or project side (with
the global-read bypass applied to the personal owner of that side). -/
theorem usable_credentials_intersection (env : Env) (user : User) (opts : WorkflowContext)
    (r : UsableCredential) (hr : r ∈ getCredentialsAUserCanUseInAWorkflow env user opts) :
    r.id ∈ (env.findCredentialsForUser user ["credential:read"]).map (fun c => c.id) ∧
    r.id ∈ (workflowSideCredentials env opts).map (fun c => c.id) := by
  unfold getCredentialsAUserCanUseInAWorkflow at hr
  obtain ⟨c, hc, hcr⟩ := List.mem_map.mp hr
  obtain ⟨hcall, hcontains⟩ := List.mem_filter.mp hc
  have hid : r.id = c.id := by rw [← hcr]
  constructor
  · rw [hid]
    exact List.mem_map.mpr ⟨c, hcall, rfl⟩
  · rw [hid]
    exact (contains_eq_mem _ _).mp hcontains

/-- A sample credential entity used by concrete environments. -/
def sampleCredential : CredentialsEntity :=
  { id := "c1", name := "n", ctype := "t", isManaged := false, data := "blob" }

/-- A sample user without global scopes. -/
def sampleUser : User := { id := "u1", globalScopes := [] }

/-- A small concrete environment used to instantiate the service theorems. -/
def sampleEnv : Env :=
  { registry := fun _ => none
    fuel := 0
    decrypt := fun _ => .nil
    findCredentialsForUser := fun _ _ => [sampleCredential]
    findPersonalOwnerForWorkflow := fun _ => none
    findPersonalOwnerForProject := fun _ => none
    findAllPersonalCredentials := []
    findAllCredentialsForWorkflow := fun _ => [sampleCredential]
    findAllCredentialsForProject := fun _ => []
    addScopes := fun _ _ => []
    getProject := fun _ =>
      some { id := "P", ptype := "personal", personalOwnerId := some "other" }
    getPersonalProject := fun _ =>
      some { id := "myPersonal", ptype := "personal", personalOwnerId := some "u1" }
    getCredentialIdsByUserAndRole := fun _ _ => []
    findMany := fun _ _ => []
    findSharingAny := fun _ => none
    findOwnerSharingForUser := fun _ _ => none
    projectRelationsForUser := fun _ => [] }

theorem usable_credentials_intersection_witness :
    ("c1" : String) ∈
        ((sampleEnv.findCredentialsForUser sampleUser ["credential:read"]).map
          (fun c => c.id)) ∧
    ("c1" : String) ∈
        ((workflowSideCredentials sampleEnv (.workflow "w")).map (fun c => c.id)) :=
  usable_credentials_intersection sampleEnv sampleUser (.workflow "w")
    { id := "c1", name := "n", ctype := "t", scopes := [], isManaged := false }
    (by decide)

/-! ## C9: personal-project filter rewrite in getMany -/

/-- C9: a caller without the global `credential:list` scope filtering by a
project id that resolves to a personal project owned by a different user
has the filter rewritten to the caller own personal project before the
query runs, so the query only sees the caller reachable credentials under
the caller own personal project. -/
theorem getMany_personal_filter_rewrite (env : Env) (user : User) (includeScopes : Bool)
    (pid : String) (project pp : Project) (oid : String)
    (hlist : hasGlobalScope user "credential:list" = false)
    (hproj : env.getProject pid = some project)
    (hper : project.ptype = "personal")
    (howner : project.personalOwnerId = some oid)
    (hdiff : oid ≠ user.id)
    (hpp : env.getPersonalProject user = some pp) :
    getMany env user includeScopes (some pid) =
      env.findMany (some pp.id)
        (some (env.getCredentialIdsByUserAndRole [user.id] ["credential:read"])) := by
  unfold getMany
  rw [hlist]
  simp only [Bool.and_false, Bool.false_eq_true, if_false]
  unfold getManyEffectiveProjectFilter
  dsimp only
  rw [hproj]
  dsimp only
  have hbeq : (project.ptype == "personal") = true := by simp [hper]
  rw [if_pos hbeq, hpp, Option.map_some']

theorem getMany_personal_filter_rewrite_witness :
    getMany sampleEnv sampleUser false (some "P") =
      sampleEnv.findMany (some "myPersonal")
        (some (sampleEnv.getCredentialIdsByUserAndRole ["u1"] ["credential:read"])) :=
  getMany_personal_filter_rewrite sampleEnv sampleUser false "P"
    { id := "P", ptype := "personal", personalOwnerId := some "other" }
    { id := "myPersonal", ptype := "personal", personalOwnerId := some "u1" }
    "other" rfl rfl rfl rfl (by decide) rfl

/-! ## C10: getOne never discloses the stored encrypted blob -/

/-- C10: the object returned by `getOne` never carries the stored encrypted
`data` blob: its `data` key is absent unless decrypted data was requested
and the sharing was found, in which case it is exactly the decrypted
payload passed through `redact`; and when no sharing is visible a
`NotFound` error is raised. -/
theorem getOne_never_returns_encrypted (env : Env) (user : User) (credentialId : String)
    (includeDecryptedData : Bool) :
    (getSharing env user credentialId ["credential:read"] = none →
      getOne env user credentialId includeDecryptedData = .error .notFound) ∧
    (∀ res, getOne env user credentialId includeDecryptedData = .ok res →
      res.data = none ∨
      (includeDecryptedData = true ∧
        ∃ sharing, getSharing env user credentialId ["credential:read"] = some sharing ∧
          res.data = redact env.registry env.fuel sharing.credentials.ctype
            (env.decrypt sharing.credentials.data))) ∧
    (includeDecryptedData = false →
      ∀ res, getOne env user credentialId includeDecryptedData = .ok res →
        res.data = none) := by
  cases includeDecryptedData with
  | false =>
    have h0 : (if (false : Bool) then getSharing env user credentialId ["credential:read"]
        else none) = none := by simp
    refine ⟨?_, ?_, ?_⟩
    · intro hsh
      unfold getOne
      rw [h0, hsh]
    · intro res hres
      left
      unfold getOne at hres
      rw [h0] at hres
      split at hres
      next sh hg => cases hres; rfl
      next hg => exact absurd hres (by simp)
    · intro _ res hres
      unfold getOne at hres
      rw [h0] at hres
      split at hres
      next sh hg => cases hres; rfl
      next hg => exact absurd hres (by simp)
  | true =>
    have h0 : (if (true : Bool) then getSharing env user credentialId ["credential:read"]
        else none) = getSharing env user credentialId ["credential:read"] := by simp
    refine ⟨?_, ?_, ?_⟩
    · intro hsh
      unfold getOne
      rw [h0, hsh]
    · intro res hres
      unfold getOne at hres
      rw [h0] at hres
      dsimp only at hres
      split at hres
      next sh hg =>
        split at hres
        next dd hred =>
          cases hres
          exact Or.inr ⟨rfl, sh, hg, by rw [hred]⟩
        next hred => exact absurd hres (by simp)
      next hg =>
        simp at hres
    · intro hfalse
      exact absurd hfalse (by simp)

theorem getOne_never_returns_encrypted_witness :
    getOne sampleEnv sampleUser "c1" true = .error .notFound :=
  (getOne_never_returns_encrypted sampleEnv sampleUser "c1" true).1 rfl

/-! ## C7: OAuth token preservation on update -/

theorem lookupKey_setKeyTop : ∀ (p : CredPayload) (k : String) (v : CredValue),
    lookupKey (setKeyTop p k v) k = some v
  | .nil, k, v => by simp [setKeyTop, lookupKey]
  | .cons k0 v0 rest, k, v => by
    unfold setKeyTop
    by_cases h : (k0 == k) = true
    · rw [if_pos h]
      simp [lookupKey, beq_iff_eq.mp h]
    · rw [if_neg h]
      have hne : ¬k0 = k := by simpa using h
      simp [lookupKey, hne, lookupKey_setKeyTop rest k v]

/-- C7: whenever the previously saved decrypted payload holds a truthy
`oauthTokenData`, the result of `prepareUpdateData` carries exactly that
stored token data, whatever unrelated fields the caller edited — it is
never silently dropped (and in fact never replaced at all while stored
token data exists, making the only-on-new-data replacement direction hold
vacuously). -/
theorem prepareUpdateData_preserves_oauth (req : CredentialUpdateRequest)
    (decryptedData : CredPayload) (w : CredValue) (res : CredentialUpdateRequest)
    (hw : lookupKey decryptedData "oauthTokenData" = some w)
    (htr : truthy w = true)
    (hres : prepareUpdateData req decryptedData = some res) :
    ∃ d, res.data = some d ∧ lookupKey d "oauthTokenData" = some w := by
  unfold prepareUpdateData at hres
  dsimp only at hres
  rw [hw] at hres
  dsimp only at hres
  rw [if_pos htr] at hres
  cases hreq : req.data with
  | some d0 =>
    rw [hreq] at hres
    dsimp only at hres
    cases hres
    exact ⟨_, rfl, lookupKey_setKeyTop _ "oauthTokenData" w⟩
  | none =>
    simp [hreq] at hres

theorem prepareUpdateData_preserves_oauth_witness :
    ∃ d,
      ({ name := none,
         data := some (.cons "scope" (.str "new-scope")
           (.cons "oauthTokenData" (.str "tok") .nil)) } : CredentialUpdateRequest).data =
          some d ∧
        lookupKey d "oauthTokenData" = some (.str "tok") :=
  prepareUpdateData_preserves_oauth
    { name := none, data := some (.cons "scope" (.str "new-scope") .nil) }
    (.cons "oauthTokenData" (.str "tok") .nil)
    (.str "tok")
    { name := none,
      data := some (.cons "scope" (.str "new-scope")
        (.cons "oauthTokenData" (.str "tok") .nil)) }
    rfl rfl rfl

end N8n
